import Mathlib

/-!
Shallow embedding of the availability-aggregation and best-time-slot core of
the scheduleit repository (`src/lib/storage.ts`, functions
`calculateGroupAvailability` and `findBestTimeSlots`, lines 175-305).

Modelling conventions:
* JavaScript strings are Lean `String`s; string relational comparison
  (`<`, and `localeCompare` on the ASCII date/time strings the code uses)
  is modelled by the character-wise lexicographic comparison `lexLtCh`
  on the underlying character lists, which agrees with JavaScript
  code-unit comparison on these strings.
* A JavaScript object used as an insertion-ordered string-keyed map
  (`groupAvailability.slots`, `slotsByDate`) is modelled as an
  association list with unique keys kept in insertion order; a fresh key
  is appended at the end, exactly as JavaScript object key order works.
* `Array.prototype.sort` with a consistent comparator `cmp` is modelled
  by the stable `List.insertionSort` with the relation
  `fun a b => cmp a b ≤ 0`; ES2019 requires sort stability, and a stable
  sort under a consistent total comparator determines the output
  uniquely, so any stable model is exact.
* `Number(...)` is modelled by `jsNumber`, a decimal-digit fold; the
  NaN behaviour on malformed strings is not modelled (the code only
  feeds it the digit substrings of well-formed `HH:MM` values).
* `Array.prototype.slice(0, limit)` including its negative-`limit`
  semantics is modelled by `jsSlice` over an `Int` limit.
* The source functions contain no `throw`; `findBestTimeSlotsE` wraps
  the result in `Except` so that the specification's claims about raised
  errors are statable against the code.
-/

/-- Character-list lexicographic strict order, matching JavaScript
code-unit string comparison on the BMP strings this code manipulates. -/
def lexLtCh : List Char → List Char → Bool
  | [], [] => false
  | [], _ :: _ => true
  | _ :: _, [] => false
  | a :: as, b :: bs => if a < b then true else if b < a then false else lexLtCh as bs

/-- Model of `a.localeCompare(b)` (and of relational string comparison)
on the ASCII date/time strings used by the code: negative, zero or
positive according to lexicographic order. -/
def jsCompare (a b : String) : Int :=
  if lexLtCh a.data b.data then -1 else if a = b then 0 else 1

/-- Split a character list at every occurrence of the separator, as
JavaScript `String.prototype.split` with a one-character separator. -/
def splitCharAux (c : Char) : List Char → List (List Char)
  | [] => [[]]
  | a :: as =>
    if a = c then [] :: splitCharAux c as
    else
      match splitCharAux c as with
      | [] => [[a]]
      | l :: ls => (a :: l) :: ls

/-- Model of `s.split(c)` for a one-character separator `c`. -/
def splitOnChar (c : Char) (s : String) : List String :=
  (splitCharAux c s.data).map String.mk

/-- Model of JavaScript `Number(s)` on strings of decimal digits (the
only shape the embedded code feeds it); NaN is not modelled. -/
def jsNumber (s : String) : Nat :=
  s.data.foldl (fun n ch => n * 10 + (ch.toNat - 48)) 0

/-- Model of `s.padStart(2, '0')`. -/
def padStart2 (s : String) : String :=
  if s.length ≥ 2 then s else String.mk (List.replicate (2 - s.length) '0') ++ s

/-- The template literal
`` `${h.toString().padStart(2, '0')}:${m.toString().padStart(2, '0')}` ``
used by `getSlotEndTime` (storage.ts line 223). -/
def timeStr (h m : Nat) : String :=
  padStart2 (toString h) ++ ":" ++ padStart2 (toString m)

/-- One value of the `GroupAvailability.slots` record
(`{ count: number; participants: string[] }`, types.ts). -/
structure SlotData where
  count : Nat
  participants : List String
deriving Repr, DecidableEq

/-- `GroupAvailability.slots`: a string-keyed JavaScript object in
insertion order, modelled as an association list with unique keys. -/
abbrev Aggregate := List (String × SlotData)

/-- The `Availability` record (types.ts); only `participantName` and
`slots` are read by the aggregation core. -/
structure Availability where
  id : String
  eventId : String
  participantName : String
  slots : List String
  submittedAt : String
deriving Repr, DecidableEq

/-- The `BestTimeSlot` record (types.ts). -/
structure BestTimeSlot where
  date : String
  startTime : String
  endTime : String
  count : Nat
  participants : List String
deriving Repr, DecidableEq

/-- One element of `slotsByDate[date]`
(`{ time: string; count: number; participants: string[] }`,
storage.ts line 203). -/
structure SlotEntry where
  time : String
  count : Nat
  participants : List String
deriving Repr, DecidableEq

/-- Mutation `result.slots[slotKey]` performed for one slot key of one
availability record (storage.ts lines 181-185): a missing key starts
at `{count: 0, participants: []}`, then `count++` and push the name.  A
missing key is appended at the end of the object's key order. -/
def updateSlot (agg : Aggregate) (key : String) (name : String) : Aggregate :=
  match agg with
  | [] => [(key, ⟨1, [name]⟩)]
  | (k, d) :: rest =>
    if k = key then (k, ⟨d.count + 1, d.participants ++ [name]⟩) :: rest
    else (k, d) :: updateSlot rest key name

/-- `calculateGroupAvailability` (storage.ts lines 175-190), as a pure
function of the availability records fetched for the event. -/
def calculateGroupAvailability (records : List Availability) : Aggregate :=
  records.foldl
    (fun agg availability =>
      availability.slots.foldl
        (fun a slotKey => updateSlot a slotKey availability.participantName) agg)
    []

/-- The destructuring `const [date, time] = key.split('T')`
(storage.ts line 206). -/
def splitKey (key : String) : String × String :=
  let parts := splitOnChar 'T' key
  (parts.getD 0 "", parts.getD 1 "")

/-- Push an entry onto `slotsByDate[date]`, creating the key at the end
of the object's key order if absent (storage.ts lines 207-210). -/
def addToGroup (gs : List (String × List SlotEntry)) (d : String) (e : SlotEntry) :
    List (String × List SlotEntry) :=
  match gs with
  | [] => [(d, [e])]
  | (d0, es) :: rest =>
    if d0 = d then (d0, es ++ [e]) :: rest else (d0, es) :: addToGroup rest d e

/-- The `slotsByDate` object after the `Object.entries(...).forEach`
loop (storage.ts lines 203-211). -/
def slotsByDate (agg : Aggregate) : List (String × List SlotEntry) :=
  agg.foldl
    (fun gs p =>
      addToGroup gs (splitKey p.1).1 ⟨(splitKey p.1).2, p.2.count, p.2.participants⟩)
    []

/-- `getSlotEndTime` (storage.ts lines 218-224). -/
def getSlotEndTime (startTime : String) : String :=
  let parts := (splitOnChar ':' startTime).map jsNumber
  let hour := parts.getD 0 0
  let minute := parts.getD 1 0
  let endMinute := if minute = 0 then 30 else 0
  let endHour := if minute = 0 then hour else hour + 1
  timeStr endHour endMinute

/-- The minutes-since-midnight value `hour * 60 + min` computed from an
`HH:MM` string by `split(':').map(Number)` (storage.ts lines 289-291). -/
def timeToMinutes (t : String) : Nat :=
  let parts := (splitOnChar ':' t).map jsNumber
  parts.getD 0 0 * 60 + parts.getD 1 0

/-- `duration = (endHour * 60 + endMin) - (startHour * 60 + startMin)`
(storage.ts line 291), an `Int` as in JavaScript. -/
def blockDuration (b : BestTimeSlot) : Int :=
  (timeToMinutes b.endTime : Int) - (timeToMinutes b.startTime : Int)

/-- Ordering relation of the per-date sort
`(a, b) => a.time.localeCompare(b.time)` (storage.ts line 215): `a` may
stay before `b` exactly when the comparator is nonpositive. -/
def timeLE (a b : SlotEntry) : Prop := jsCompare a.time b.time ≤ 0

instance : DecidableRel timeLE := fun a b => by unfold timeLE; infer_instance

/-- State of the open block inside the per-date scan: the four mutable
locals `blockStartTime`, `blockEndTime`, `blockCount`,
`blockParticipants` (storage.ts lines 230-233). -/
structure OpenBlock where
  startTime : String
  endTime : String
  count : Nat
  participants : List String
deriving Repr, DecidableEq

/-- Close the current open block into a `BestTimeSlot`
(storage.ts lines 252-258 and 277-283). -/
def closeBlock (date : String) (ob : OpenBlock) : BestTimeSlot :=
  ⟨date, ob.startTime, ob.endTime, ob.count, ob.participants⟩

/-- The remainder of the per-date `for` loop after the first block has
been opened, followed by the final push of the still-open block
(storage.ts lines 235-284).  `isConsecutive && sameCount` decides
whether the entry merges into the open block. -/
def scanGo (date : String) : List SlotEntry → OpenBlock → List BestTimeSlot
  | [], ob => [closeBlock date ob]
  | slot :: rest, ob =>
    if slot.time = ob.endTime ∧ slot.count = ob.count then
      scanGo date rest
        { ob with
          endTime := getSlotEndTime slot.time
          participants := ob.participants.filter (fun p => slot.participants.contains p) }
    else
      closeBlock date ob ::
        scanGo date rest
          ⟨slot.time, getSlotEndTime slot.time, slot.count, slot.participants⟩

/-- The whole per-date scan (storage.ts lines 229-285): an empty entry
list produces no block, otherwise the first entry opens the first block
and the loop continues with `scanGo`. -/
def scanDate (date : String) : List SlotEntry → List BestTimeSlot
  | [] => []
  | slot :: rest =>
    scanGo date rest ⟨slot.time, getSlotEndTime slot.time, slot.count, slot.participants⟩

/-- The `blocks` array collected across all dates
(storage.ts lines 227-285), with each date's entries first sorted by
time as at line 215. -/
def datedBlocks (agg : Aggregate) : List BestTimeSlot :=
  ((slotsByDate agg).map (fun g => scanDate g.1 (List.insertionSort timeLE g.2))).flatten

/-- `blocksWithDuration` (storage.ts lines 288-293): each block paired
with its duration in minutes. -/
def blocksWithDuration (agg : Aggregate) : List (BestTimeSlot × Int) :=
  (datedBlocks agg).map (fun b => (b, blockDuration b))

/-- The ranking comparator (storage.ts lines 296-301): count
descending, then duration descending, then date ascending, then start
time ascending. -/
def compareBlocks (a b : BestTimeSlot × Int) : Int :=
  if a.1.count ≠ b.1.count then (b.1.count : Int) - (a.1.count : Int)
  else if a.2 ≠ b.2 then b.2 - a.2
  else if a.1.date ≠ b.1.date then jsCompare a.1.date b.1.date
  else jsCompare a.1.startTime b.1.startTime

/-- Ordering relation induced by the ranking comparator: `a` may stay
before `b` exactly when `compareBlocks a b ≤ 0`. -/
def rankLE (a b : BestTimeSlot × Int) : Prop := compareBlocks a b ≤ 0

instance : DecidableRel rankLE := fun a b => by unfold rankLE; infer_instance

/-- `blocksWithDuration.sort(...)` (storage.ts lines 296-301). -/
def rankedBlocks (agg : Aggregate) : List (BestTimeSlot × Int) :=
  List.insertionSort rankLE (blocksWithDuration agg)

/-- `Array.prototype.slice(0, limit)` over an integer `limit`,
including the negative-limit semantics (count from the end). -/
def jsSlice {α : Type} (l : List α) (limit : Int) : List α :=
  if 0 ≤ limit then l.take limit.toNat else l.take (l.length - (-limit).toNat)

/-- Lines 203-304 of `findBestTimeSlots`: everything after the
`totalParticipants === 0` early return, as a function of the already
computed aggregate.  The final `map` drops the `duration` field. -/
def bestBlocksFromAgg (agg : Aggregate) (limit : Int) : List BestTimeSlot :=
  (jsSlice (rankedBlocks agg) limit).map Prod.fst

/-- `findBestTimeSlots` (storage.ts lines 192-305) as a pure function
of the availability records fetched for the event; `totalParticipants`
is the number of records. -/
def findBestTimeSlots (records : List Availability) (limit : Int) : List BestTimeSlot :=
  let groupAvailability := calculateGroupAvailability records
  let totalParticipants := records.length
  if totalParticipants = 0 then [] else bestBlocksFromAgg groupAvailability limit

/-- `findBestTimeSlots` with an explicit error channel.  The source
function contains no `throw` statement on any path, so this
exception-aware view always returns `Except.ok`; it exists so that the
specification's claims about raised errors can be stated. -/
def findBestTimeSlotsE (records : List Availability) (limit : Int) :
    Except String (List BestTimeSlot) :=
  Except.ok (findBestTimeSlots records limit)

/-! ### Specification-side notions used in the theorem statements -/

/-- The SlotKey concatenation `date ++ "T" ++ time`. -/
def mkKey (d t : String) : String := d ++ "T" ++ t

/-- A well-formed slot start time: `HH:MM` on the 30-minute grid with
an hour below 24, exactly as produced by the grid UI. -/
def WFTime (t : String) : Prop :=
  ∃ h m, h < 24 ∧ (m = 0 ∨ m = 30) ∧ t = timeStr h m

/-- A well-formed date component simply may not contain the `'T'`
separator (ISO `YYYY-MM-DD` dates never do). -/
def WFDate (d : String) : Prop := 'T' ∉ d.data

/-- A well-formed SlotKey: a well-formed date and a well-formed
30-minute grid time joined by `'T'`. -/
def WFKey (k : String) : Prop :=
  ∃ d t, WFDate d ∧ WFTime t ∧ k = mkKey d t

/-- The merge condition of the per-date scan, as a relation between
consecutive entries: the later entry starts where the earlier entry's
slot ends and carries the same count. -/
def adjSame (a b : SlotEntry) : Prop :=
  b.time = getSlotEndTime a.time ∧ b.count = a.count

/-- Iterated narrowing of a participant list by the `filter`/`includes`
intersection of the scan (storage.ts line 249), over the tail of a
segment of merged entries. -/
def intersectAll (e : SlotEntry) (es : List SlotEntry) : List String :=
  es.foldl (fun ps s => ps.filter (fun p => s.participants.contains p)) e.participants

/-- The block obtained by merging the nonempty entry segment
`e :: es`: it starts at the first entry, ends at the end of the last
entry's slot, reports the first entry's count, and intersects all the
entries' participant lists. -/
def mkSeg (date : String) (e : SlotEntry) (es : List SlotEntry) : BestTimeSlot :=
  ⟨date, e.time, getSlotEndTime (es.getLastD e).time, e.count, intersectAll e es⟩

/-- The open-block state corresponding to the already merged nonempty
segment `e :: es`. -/
def obOf (e : SlotEntry) (es : List SlotEntry) : OpenBlock :=
  ⟨e.time, getSlotEndTime (es.getLastD e).time, e.count, intersectAll e es⟩

/-- Concatenation of a list of nonempty segments, each represented as
head plus tail. -/
def segJoin (segs : List (SlotEntry × List SlotEntry)) : List SlotEntry :=
  segs.flatMap (fun s => s.1 :: s.2)

/-- Boundary condition between two emitted segments: the first entry of
the later segment must NOT satisfy the merge condition against the
earlier segment's closed block (otherwise the scan would have merged
it). -/
def notMerge (s1 s2 : SlotEntry × List SlotEntry) : Prop :=
  ¬ (s2.1.time = getSlotEndTime (s1.2.getLastD s1.1).time ∧ s2.1.count = s1.1.count)

/-- The four-key ranking order of the specification, stated directly on
output blocks: count descending, then duration (`endTime - startTime`,
in minutes) descending, then date ascending, then start time ascending
(lexicographic order on the fixed-width strings, which is chronological
order). -/
def specBlockOrder (a b : BestTimeSlot) : Prop :=
  b.count < a.count ∨
    (a.count = b.count ∧
      (blockDuration b < blockDuration a ∨
        (blockDuration a = blockDuration b ∧
          (lexLtCh a.date.data b.date.data = true ∨
            (a.date = b.date ∧
              (lexLtCh a.startTime.data b.startTime.data = true ∨
                a.startTime = b.startTime))))))

/-- Lookup of a key in the association-list model of the aggregate
object. -/
def aggLookup (agg : Aggregate) (key : String) : Option SlotData :=
  (agg.find? (fun p => p.1 == key)).map Prod.snd

/-- The contribution of one availability record to one slot key: its
participant name once per occurrence of the key in its slot list. -/
def occsOf (r : Availability) (key : String) : List String :=
  (r.slots.filter (fun k => k == key)).map (fun _ => r.participantName)

/-- All contributions of a record list to one slot key, in record
order. -/
def occs (records : List Availability) (key : String) : List String :=
  (records.map (fun r => occsOf r key)).flatten

/-- The count stored in the computed aggregate at a key (0 when the key
is absent). -/
def countAt (records : List Availability) (key : String) : Nat :=
  ((aggLookup (calculateGroupAvailability records) key).map SlotData.count).getD 0

/-- The participant list stored in the computed aggregate at a key
(empty when the key is absent). -/
def partsAt (records : List Availability) (key : String) : List String :=
  ((aggLookup (calculateGroupAvailability records) key).map SlotData.participants).getD []

/-- Iterated extension of an optional aggregate cell by a list of
participant names, mirroring what repeated `updateSlot` calls at the
same key do to that key's cell. -/
def extendOpt : Option SlotData → List String → Option SlotData
  | o, [] => o
  | none, n :: ns => extendOpt (some ⟨1, [n]⟩) ns
  | some d, n :: ns => extendOpt (some ⟨d.count + 1, d.participants ++ [n]⟩) ns

/-- The `SlotEntry` pushed onto `slotsByDate` for one aggregate cell
(storage.ts line 210). -/
def entryOf (p : String × SlotData) : SlotEntry :=
  ⟨(splitKey p.1).2, p.2.count, p.2.participants⟩

/-- Lookup of one date's entry list in the grouping object (empty when
the date key is absent). -/
def gLookup (gs : List (String × List SlotEntry)) (d : String) : List SlotEntry :=
  ((gs.find? (fun g => g.1 == d)).map Prod.snd).getD []

/-! ### Concrete inputs used by witnesses -/

/-- A record set producing two blocks on two different dates. -/
def wTwoBlocks : Availability :=
  ⟨"4", "e", "A", ["2024-01-11T09:00", "2024-01-10T09:00"], "t"⟩

/-- Three-participant scenario of the specification, participant P1. -/
def wP1 : Availability := ⟨"1", "e", "P1", ["2024-01-10T09:00", "2024-01-10T09:30"], "t"⟩

/-- Three-participant scenario of the specification, participant P2. -/
def wP2 : Availability := ⟨"2", "e", "P2", ["2024-01-10T09:00"], "t"⟩

/-- Three-participant scenario of the specification, participant P3. -/
def wP3 : Availability :=
  ⟨"3", "e", "P3", ["2024-01-10T09:00", "2024-01-10T09:30", "2024-01-10T10:00"], "t"⟩

/-! ### C6, C7, C5, C10 -/

/-- C6: aggregating an empty record list yields an aggregate with zero
entries, and the best-slot finder with zero total participants (an
empty record list) returns the empty list without raising; no division
by the participant count occurs anywhere in the embedded code path. -/
theorem c6_empty_input_safety :
    calculateGroupAvailability [] = [] ∧
    (∀ limit : Int, findBestTimeSlots [] limit = []) ∧
    (∀ limit : Int, findBestTimeSlotsE [] limit = Except.ok []) :=
  ⟨rfl, fun _ => rfl, fun _ => rfl⟩

/-- C7: the end-of-slot helper maps `(h, 0)` to `(h, 30)` and `(h, 30)`
to `(h+1, 0)` for every hour `0 ≤ h ≤ 23`, and performs no day
rollover: the slot starting at `23:30` gets end time `24:00` rather
than wrapping into another date's key space. -/
theorem c7_slot_end_time :
    (∀ h, h < 24 →
      getSlotEndTime (timeStr h 0) = timeStr h 30 ∧
      getSlotEndTime (timeStr h 30) = timeStr (h + 1) 0) ∧
    getSlotEndTime "23:30" = "24:00" := by
  decide

/-- C5 as stated is false: the finder raises nothing at `limit = 0`
even though `0 ≤ 0`; there is no `InvalidLimitError` anywhere in the
code, so the "raises if and only if `limit ≤ 0`" biconditional fails at
this concrete input. -/
theorem c5_counterexample :
    ¬ (((findBestTimeSlotsE [] 0).isOk = false) ↔ (0 : Int) ≤ 0) := by
  decide

/-- C5 amended: the finder does not raise for empty or degenerate
input, and it never raises `InvalidLimitError` at all: for `limit ≤ 0`
it returns normally, yielding the empty list at `limit = 0` and the
JavaScript `slice(0, limit)` truncation for negative limits. -/
theorem c5_amended_no_error (records : List Availability) (limit : Int) (hle : limit ≤ 0) :
    (findBestTimeSlotsE records limit).isOk = true ∧
    findBestTimeSlots records 0 = [] ∧
    (limit < 0 → findBestTimeSlots records limit =
      ((rankedBlocks (calculateGroupAvailability records)).map Prod.fst).take
        (((rankedBlocks (calculateGroupAvailability records)).map Prod.fst).length
          - (-limit).toNat)) := by
  refine ⟨rfl, ?_, ?_⟩
  · by_cases hrec : records.length = 0
    · simp [findBestTimeSlots, hrec]
    · simp [findBestTimeSlots, hrec, bestBlocksFromAgg, jsSlice]
  · intro hneg
    by_cases hrec : records.length = 0
    · rw [List.length_eq_zero] at hrec
      subst hrec
      simp [findBestTimeSlots, calculateGroupAvailability, slotsByDate, datedBlocks,
        blocksWithDuration, rankedBlocks]
    · have hno : ¬ (0 ≤ limit) := by omega
      simp [findBestTimeSlots, hrec, bestBlocksFromAgg, jsSlice, hno, List.map_take]

/-- Closed witness for the amended C5: at two concrete records and
`limit = -1` the finder returns without error and drops the last of the
two ranked blocks. -/
theorem c5_amended_no_error_witness :
    (findBestTimeSlotsE [wTwoBlocks] (-1)).isOk = true ∧
    findBestTimeSlots [wTwoBlocks] 0 = [] ∧
    ((-1 : Int) < 0 → findBestTimeSlots [wTwoBlocks] (-1) =
      ((rankedBlocks (calculateGroupAvailability [wTwoBlocks])).map Prod.fst).take
        (((rankedBlocks (calculateGroupAvailability [wTwoBlocks])).map Prod.fst).length
          - (-(-1 : Int)).toNat)) :=
  c5_amended_no_error [wTwoBlocks] (-1) (by decide)

/-- C10: for every negative limit the finder neither raises nor keeps
the top-ranked blocks: it removes the last `min(|limit|, length)`
elements of the ranked block list (JavaScript `slice(0, limit)`), and
`limit = 0` yields the empty list. -/
theorem c10_negative_limit_slice (records : List Availability) (limit : Int) (h : limit < 0) :
    (findBestTimeSlotsE records limit).isOk = true ∧
    findBestTimeSlots records 0 = [] ∧
    findBestTimeSlots records limit =
      ((rankedBlocks (calculateGroupAvailability records)).map Prod.fst).take
        (((rankedBlocks (calculateGroupAvailability records)).map Prod.fst).length
          - min (-limit).toNat
              ((rankedBlocks (calculateGroupAvailability records)).map Prod.fst).length) := by
  refine ⟨rfl, ?_, ?_⟩
  · by_cases hrec : records.length = 0
    · simp [findBestTimeSlots, hrec]
    · simp [findBestTimeSlots, hrec, bestBlocksFromAgg, jsSlice]
  · have harith : ∀ n : Nat, n - min (-limit).toNat n = n - (-limit).toNat := by omega
    rw [harith]
    by_cases hrec : records.length = 0
    · rw [List.length_eq_zero] at hrec
      subst hrec
      simp [findBestTimeSlots, calculateGroupAvailability, slotsByDate, datedBlocks,
        blocksWithDuration, rankedBlocks]
    · have hno : ¬ (0 ≤ limit) := by omega
      simp [findBestTimeSlots, hrec, bestBlocksFromAgg, jsSlice, hno, List.map_take]

/-- Closed witness for C10: on a two-block result, `limit = -1` keeps
only the first-ranked block (the earlier date). -/
theorem c10_negative_limit_slice_witness :
    findBestTimeSlots [wTwoBlocks] (-1) =
      [⟨"2024-01-10", "09:00", "09:30", 1, ["A"]⟩] :=
  ((c10_negative_limit_slice [wTwoBlocks] (-1) (by decide)).2.2).trans (by decide)

/-! ### Aggregation characterization (shared by C4 and C8) -/

/-- Lookup in the empty aggregate. -/
theorem aggLookup_nil (key : String) : aggLookup [] key = none := rfl

/-- Lookup distributes over a cons cell of the association list. -/
theorem aggLookup_cons (k : String) (d : SlotData) (rest : Aggregate) (key : String) :
    aggLookup ((k, d) :: rest) key = if k = key then some d else aggLookup rest key := by
  by_cases h : k = key <;> simp [aggLookup, List.find?_cons, h]

/-- Extension of an optional cell by the empty contribution list. -/
theorem extendOpt_nil (o : Option SlotData) : extendOpt o [] = o := by
  cases o <;> rfl

/-- Effect of one `updateSlot` call on one key's cell. -/
theorem aggLookup_updateSlot (agg : Aggregate) (k name key : String) :
    aggLookup (updateSlot agg k name) key =
      if key = k then
        match aggLookup agg key with
        | none => some ⟨1, [name]⟩
        | some d => some ⟨d.count + 1, d.participants ++ [name]⟩
      else aggLookup agg key := by
  induction agg with
  | nil =>
    rw [updateSlot, aggLookup_cons]
    by_cases h : key = k
    · subst h; simp [aggLookup_nil]
    · simp [aggLookup_nil, h, Ne.symm h]
  | cons p rest ih =>
    obtain ⟨k0, d0⟩ := p
    rw [updateSlot]
    by_cases h0 : k0 = k
    · subst h0
      rw [if_pos rfl, aggLookup_cons, aggLookup_cons]
      by_cases h : key = k0
      · subst h; simp
      · simp [h, Ne.symm h]
    · rw [if_neg h0, aggLookup_cons, aggLookup_cons, ih]
      by_cases h1 : k0 = key
      · subst h1
        simp [h0]
      · simp [h1]

/-- `extendOpt` splits over list concatenation. -/
theorem extendOpt_append (l1 l2 : List String) (o : Option SlotData) :
    extendOpt o (l1 ++ l2) = extendOpt (extendOpt o l1) l2 := by
  induction l1 generalizing o with
  | nil => simp [extendOpt_nil]
  | cons n ns ih =>
    cases o with
    | none => simpa [extendOpt] using ih _
    | some d => simpa [extendOpt] using ih _

/-- Closed form of `extendOpt` from a populated cell. -/
theorem extendOpt_some (l : List String) (c : Nat) (ps : List String) :
    extendOpt (some ⟨c, ps⟩) l = some ⟨c + l.length, ps ++ l⟩ := by
  induction l generalizing c ps with
  | nil => simp [extendOpt_nil]
  | cons n ns ih =>
    rw [extendOpt, ih]
    simp [List.append_assoc]
    omega

/-- Closed form of `extendOpt` from an absent cell. -/
theorem extendOpt_none (l : List String) :
    extendOpt none l = if l = [] then none else some ⟨l.length, l⟩ := by
  cases l with
  | nil => rfl
  | cons n ns => rw [extendOpt, extendOpt_some]; simp [Nat.add_comm]

/-- Effect on one key's cell of folding one record's whole slot list
into the aggregate. -/
theorem aggLookup_foldl_updateSlot (slots : List String) (name key : String) (agg : Aggregate) :
    aggLookup (slots.foldl (fun a sk => updateSlot a sk name) agg) key =
      extendOpt (aggLookup agg key)
        ((slots.filter (fun k => k == key)).map (fun _ => name)) := by
  induction slots generalizing agg with
  | nil => simp [extendOpt_nil]
  | cons sk rest ih =>
    rw [List.foldl_cons, ih, aggLookup_updateSlot]
    by_cases h : key = sk
    · subst h
      simp only [List.filter_cons, beq_self_eq_true, if_pos, List.map_cons]
      cases hcell : aggLookup agg key <;> simp [extendOpt]
    · have hne : (sk == key) = false := by simp [Ne.symm h]
      simp [List.filter_cons, hne, h]

/-- The cell computed by `calculateGroupAvailability` at any key is
exactly the per-record contribution list `occs`, with the count equal
to its length. -/
theorem agg_characterization (records : List Availability) (key : String) :
    aggLookup (calculateGroupAvailability records) key =
      if occs records key = [] then none
      else some ⟨(occs records key).length, occs records key⟩ := by
  rw [← extendOpt_none]
  suffices h : ∀ agg : Aggregate,
      aggLookup
        (records.foldl
          (fun agg availability =>
            availability.slots.foldl
              (fun a slotKey => updateSlot a slotKey availability.participantName) agg)
          agg) key = extendOpt (aggLookup agg key) (occs records key) by
    simpa [calculateGroupAvailability, aggLookup_nil] using h []
  induction records with
  | nil => intro agg; simp [occs, extendOpt_nil]
  | cons r rest ih =>
    intro agg
    rw [List.foldl_cons, ih]
    have hocc : occs (r :: rest) key = occsOf r key ++ occs rest key := by
      simp [occs]
    rw [hocc, extendOpt_append, aggLookup_foldl_updateSlot]
    rfl

/-- Every contribution of one record to one key is that record's
participant name. -/
theorem mem_occsOf (r : Availability) (key x : String) :
    x ∈ occsOf r key → x = r.participantName := by
  intro hx
  simp only [occsOf, List.mem_map] at hx
  obtain ⟨_, _, hx⟩ := hx
  exact hx.symm

/-- C4: if no record's slot list contains a duplicate key and the
participant names are pairwise distinct, then every populated aggregate
cell has `count` equal to the length of its participant list and a
duplicate-free participant list. -/
theorem c4_count_conservation (records : List Availability)
    (hslots : ∀ r ∈ records, r.slots.Nodup)
    (hnames : (records.map Availability.participantName).Nodup) :
    ∀ key d, aggLookup (calculateGroupAvailability records) key = some d →
      d.count = d.participants.length ∧ d.participants.Nodup := by
  intro key d hd
  rw [agg_characterization] at hd
  by_cases hocc : occs records key = []
  · rw [if_pos hocc] at hd; exact absurd hd (by simp)
  · rw [if_neg hocc, Option.some_inj] at hd
    subst hd
    refine ⟨rfl, ?_⟩
    rw [occs, List.nodup_flatten]
    constructor
    · intro l hl
      rw [List.mem_map] at hl
      obtain ⟨r, hr, rfl⟩ := hl
      have hlen : (r.slots.filter (fun k => k == key)).length ≤ 1 := by
        by_contra hgt
        push_neg at hgt
        obtain ⟨a, b, rest, hab⟩ : ∃ a b rest,
            r.slots.filter (fun k => k == key) = a :: b :: rest := by
          match hf : r.slots.filter (fun k => k == key) with
          | [] => rw [hf] at hgt; simp at hgt
          | [a] => rw [hf] at hgt; simp at hgt
          | a :: b :: rest => exact ⟨a, b, rest, rfl⟩
        have hnd : (r.slots.filter (fun k => k == key)).Nodup :=
          List.Nodup.filter _ (hslots r hr)
        have ha : a = key := by
          have : a ∈ r.slots.filter (fun k => k == key) := by rw [hab]; simp
          have := List.of_mem_filter this
          simpa using this
        have hb : b = key := by
          have : b ∈ r.slots.filter (fun k => k == key) := by rw [hab]; simp
          have := List.of_mem_filter this
          simpa using this
        rw [hab, ha, hb] at hnd
        simp at hnd
      rw [occsOf]
      match hf : r.slots.filter (fun k => k == key) with
      | [] => simp
      | [a] => simp
      | a :: b :: rest => rw [hf] at hlen; simp at hlen
    · have hpn : List.Pairwise (fun r s : Availability =>
          r.participantName ≠ s.participantName) records := by
        rw [← List.pairwise_map]
        exact hnames
      rw [List.pairwise_map]
      refine hpn.imp_of_mem ?_
      intro r s _ _ hne
      intro x hxr hxs
      exact hne ((mem_occsOf r key x hxr).symm.trans (mem_occsOf s key x hxs))

/-- Closed witness for C4 at the specification's three-participant
scenario and the `09:00` slot key. -/
theorem c4_count_conservation_witness :
    (⟨3, ["P1", "P2", "P3"]⟩ : SlotData).count
        = (⟨3, ["P1", "P2", "P3"]⟩ : SlotData).participants.length ∧
    (⟨3, ["P1", "P2", "P3"]⟩ : SlotData).participants.Nodup :=
  c4_count_conservation [wP1, wP2, wP3] (by decide) (by decide)
    "2024-01-10T09:00" ⟨3, ["P1", "P2", "P3"]⟩ (by decide)

/-- C8: permuting the record list leaves every key's count unchanged
and leaves every key's participant-name membership unchanged (only the
order inside the participant lists may differ). -/
theorem c8_permutation_invariance (records records' : List Availability)
    (h : records.Perm records') :
    ∀ key, countAt records key = countAt records' key ∧
      (∀ name, name ∈ partsAt records key ↔ name ∈ partsAt records' key) := by
  have hlen : ∀ key, (occs records key).length = (occs records' key).length := by
    intro key
    rw [occs, occs, List.length_flatten, List.length_flatten]
    exact ((h.map (fun r => occsOf r key)).map List.length).sum_eq
  have hmem : ∀ key name, name ∈ occs records key ↔ name ∈ occs records' key :=
    fun key name => (h.map (fun r => occsOf r key)).flatten.mem_iff
  intro key
  have hempty : occs records key = [] ↔ occs records' key = [] := by
    rw [← List.length_eq_zero, ← List.length_eq_zero, hlen]
  constructor
  · rw [countAt, countAt, agg_characterization, agg_characterization]
    by_cases h0 : occs records key = []
    · rw [if_pos h0, if_pos (hempty.mp h0)]
    · rw [if_neg h0, if_neg (fun hc => h0 (hempty.mpr hc))]
      simpa using hlen key
  · intro name
    rw [partsAt, partsAt, agg_characterization, agg_characterization]
    by_cases h0 : occs records key = []
    · rw [if_pos h0, if_pos (hempty.mp h0)]
    · rw [if_neg h0, if_neg (fun hc => h0 (hempty.mpr hc))]
      simpa using hmem key name

/-- Closed witness for C8: swapping two records changes neither the
count nor the membership at the shared slot key. -/
theorem c8_permutation_invariance_witness :
    countAt [wP1, wP2] "2024-01-10T09:00" = countAt [wP2, wP1] "2024-01-10T09:00" ∧
    ("P1" ∈ partsAt [wP1, wP2] "2024-01-10T09:00" ↔
      "P1" ∈ partsAt [wP2, wP1] "2024-01-10T09:00") :=
  ⟨(c8_permutation_invariance [wP1, wP2] [wP2, wP1]
      (List.Perm.swap wP2 wP1 []) "2024-01-10T09:00").1,
   (c8_permutation_invariance [wP1, wP2] [wP2, wP1]
      (List.Perm.swap wP2 wP1 []) "2024-01-10T09:00").2 "P1"⟩

/-! ### Segmentation of the per-date scan (C2, and machinery for C3, C9) -/

/-- Within a merge chain every entry carries the head's count. -/
theorem chain_count_eq (e : SlotEntry) (es : List SlotEntry)
    (h : List.Chain' adjSame (e :: es)) : ∀ x ∈ e :: es, x.count = e.count := by
  induction es generalizing e with
  | nil => intro x hx; simp at hx; rw [hx]
  | cons s es' ih =>
    intro x hx
    rw [List.chain'_cons] at h
    rcases List.mem_cons.mp hx with hx | hx
    · rw [hx]
    · rw [ih s h.2 x hx, h.1.2]

/-- Appending an entry adjacent to the last element extends a merge
chain. -/
theorem chain_adj_snoc (e : SlotEntry) (es : List SlotEntry) (s : SlotEntry)
    (h : List.Chain' adjSame (e :: es)) (hs : adjSame (es.getLastD e) s) :
    List.Chain' adjSame (e :: (es ++ [s])) := by
  induction es generalizing e with
  | nil => exact List.chain'_cons.mpr ⟨hs, List.chain'_singleton s⟩
  | cons a es' ih =>
    rw [List.chain'_cons] at h
    rw [List.getLastD_cons] at hs
    exact List.chain'_cons.mpr ⟨h.1, ih a h.2 hs⟩

/-- Membership in the iterated participant intersection. -/
theorem mem_foldl_inter (es : List SlotEntry) (ps : List String) (p : String) :
    p ∈ es.foldl (fun acc s => acc.filter (fun q => s.participants.contains q)) ps ↔
      p ∈ ps ∧ ∀ s ∈ es, p ∈ s.participants := by
  induction es generalizing ps with
  | nil => simp
  | cons s es' ih =>
    rw [List.foldl_cons, ih, List.mem_filter]
    simp only [List.mem_cons]
    constructor
    · rintro ⟨⟨hp, hc⟩, hall⟩
      refine ⟨hp, ?_⟩
      rintro x (rfl | hx)
      · simpa using hc
      · exact hall x hx
    · rintro ⟨hp, hall⟩
      exact ⟨⟨hp, by simpa using hall s (Or.inl rfl)⟩, fun x hx => hall x (Or.inr hx)⟩

/-- Membership in `intersectAll` is membership in every entry of the
segment. -/
theorem mem_intersectAll (e : SlotEntry) (es : List SlotEntry) (p : String) :
    p ∈ intersectAll e es ↔ ∀ x ∈ e :: es, p ∈ x.participants := by
  rw [intersectAll, mem_foldl_inter]
  simp only [List.mem_cons]
  constructor
  · rintro ⟨hp, hall⟩ x (rfl | hx)
    · exact hp
    · exact hall x hx
  · intro h
    exact ⟨h e (Or.inl rfl), fun x hx => h x (Or.inr hx)⟩

/-- Main invariant of the scan loop: continuing the scan from the open
block built from the already merged segment `e :: es` produces the
blocks of a segmentation of the remaining input, where the first
emitted block completes `e :: es` with some further merged extension,
every segment is a merge chain, and no segment's first entry would have
merged into the previous segment's block. -/
theorem scanGo_segmentation (date : String) :
    ∀ (slots : List SlotEntry) (e : SlotEntry) (es : List SlotEntry),
      List.Chain' adjSame (e :: es) →
      ∃ (ext : List SlotEntry) (segs : List (SlotEntry × List SlotEntry)),
        slots = ext ++ segJoin segs ∧
        List.Chain' adjSame (e :: (es ++ ext)) ∧
        scanGo date slots (obOf e es) =
          ((e, es ++ ext) :: segs).map (fun s => mkSeg date s.1 s.2) ∧
        (∀ s ∈ segs, List.Chain' adjSame (s.1 :: s.2)) ∧
        List.Chain' notMerge ((e, es ++ ext) :: segs) := by
  intro slots
  induction slots with
  | nil =>
    intro e es hch
    refine ⟨[], [], by simp [segJoin], by simpa using hch, ?_, by simp, by simp⟩
    simp only [List.map_cons, List.map_nil, List.append_nil]
    rfl
  | cons s rest ih =>
    intro e es hch
    by_cases hc : s.time = getSlotEndTime (es.getLastD e).time ∧ s.count = e.count
    · have hadj : adjSame (es.getLastD e) s := by
        refine ⟨hc.1, ?_⟩
        rw [hc.2]
        exact (chain_count_eq e es hch _ (List.getLastD_mem_cons es e)).symm
      have hch' : List.Chain' adjSame (e :: (es ++ [s])) := chain_adj_snoc e es s hch hadj
      have hob : ({ obOf e es with
            endTime := getSlotEndTime s.time
            participants := (obOf e es).participants.filter
              (fun p => s.participants.contains p) } : OpenBlock) = obOf e (es ++ [s]) := by
        simp [obOf, List.getLastD_concat, intersectAll, List.foldl_append]
      obtain ⟨ext, segs, hjoin, hchain, hscan, hsegs, hbound⟩ := ih e (es ++ [s]) hch'
      refine ⟨s :: ext, segs, ?_, ?_, ?_, hsegs, ?_⟩
      · simpa using hjoin
      · simpa [List.append_assoc] using hchain
      · rw [scanGo,
          if_pos (show s.time = (obOf e es).endTime ∧ s.count = (obOf e es).count from hc),
          hob, hscan]
        simp [List.append_assoc]
      · simpa [List.append_assoc] using hbound
    · obtain ⟨ext, segs, hjoin, hchain, hscan, hsegs, hbound⟩ :=
        ih s [] (List.chain'_singleton s)
      refine ⟨[], (s, ext) :: segs, ?_, by simpa using hch, ?_, ?_, ?_⟩
      · simp only [segJoin, List.flatMap_cons, List.nil_append, List.cons_append]
        rw [hjoin]
        simp [segJoin]
      · rw [scanGo,
          if_neg (show ¬ (s.time = (obOf e es).endTime ∧ s.count = (obOf e es).count) from hc)]
        have hseed : (⟨s.time, getSlotEndTime s.time, s.count, s.participants⟩ : OpenBlock)
            = obOf s [] := rfl
        rw [hseed, hscan]
        simp only [List.map_cons, List.nil_append, List.append_nil]
        rfl
      · intro x hx
        rcases List.mem_cons.mp hx with rfl | hx
      <;> first
        | exact (by simpa using hchain)
        | exact hsegs x hx
      · refine List.chain'_cons.mpr ⟨?_, by simpa using hbound⟩
        simpa [notMerge, List.append_nil] using hc

/-- The per-date scan produces exactly the blocks of a segmentation of
its input entry list into maximal merge chains. -/
theorem scanDate_segmentation (date : String) (slots : List SlotEntry) :
    ∃ segs : List (SlotEntry × List SlotEntry),
      slots = segJoin segs ∧
      scanDate date slots = segs.map (fun s => mkSeg date s.1 s.2) ∧
      (∀ s ∈ segs, List.Chain' adjSame (s.1 :: s.2)) ∧
      List.Chain' notMerge segs := by
  cases slots with
  | nil => exact ⟨[], by simp [segJoin], rfl, by simp, by simp⟩
  | cons s rest =>
    obtain ⟨ext, segs, hjoin, hchain, hscan, hsegs, hbound⟩ :=
      scanGo_segmentation date rest s [] (List.chain'_singleton s)
    refine ⟨(s, ext) :: segs, ?_, ?_, ?_, ?_⟩
    · simp only [segJoin, List.flatMap_cons, List.cons_append]
      rw [hjoin]
      simp [segJoin]
    · have hseed : scanDate date (s :: rest) = scanGo date rest (obOf s []) := rfl
      rw [hseed, hscan]
      simp
    · intro x hx
      rcases List.mem_cons.mp hx with rfl | hx
      · simpa using hchain
      · exact hsegs x hx
    · simpa using hbound

/-- C2: the per-date scan merges an entry into the open block exactly
when the entry starts at the block's current end time and carries the
block's count.  Stated as: the scan's output is the block list of a
segmentation of its input in which every segment is a chain of the
merge relation `adjSame` (the "if" direction), consecutive segments
fail the merge condition at the boundary (the "only if" direction),
every constituent entry of a segment carries the block's reported
count, and a participant is in the block's list exactly when it is in
every constituent entry's list (the block participants are the
intersection). -/
theorem c2_block_uniformity (date : String) (slots : List SlotEntry) :
    ∃ segs : List (SlotEntry × List SlotEntry),
      slots = segJoin segs ∧
      scanDate date slots = segs.map (fun s => mkSeg date s.1 s.2) ∧
      (∀ s ∈ segs, List.Chain' adjSame (s.1 :: s.2)) ∧
      List.Chain' notMerge segs ∧
      (∀ s ∈ segs, ∀ x ∈ s.1 :: s.2, x.count = (mkSeg date s.1 s.2).count) ∧
      (∀ s ∈ segs, ∀ p, p ∈ (mkSeg date s.1 s.2).participants ↔
        ∀ x ∈ s.1 :: s.2, p ∈ x.participants) := by
  obtain ⟨segs, hjoin, hscan, hsegs, hbound⟩ := scanDate_segmentation date slots
  refine ⟨segs, hjoin, hscan, hsegs, hbound, ?_, ?_⟩
  · intro s hs x hx
    exact chain_count_eq s.1 s.2 (hsegs s hs) x hx
  · intro s _ p
    exact mem_intersectAll s.1 s.2 p

/-! ### The ranking comparator is a total preorder (machinery for C1) -/

/-- Lexicographic comparison is irreflexive. -/
theorem lexLtCh_self (as : List Char) : lexLtCh as as = false := by
  induction as with
  | nil => rfl
  | cons a as' ih => rw [lexLtCh]; simp [lt_irrefl, ih]

/-- Lexicographic comparison is transitive. -/
theorem lexLtCh_trans (as bs cs : List Char) (h1 : lexLtCh as bs = true)
    (h2 : lexLtCh bs cs = true) : lexLtCh as cs = true := by
  induction as generalizing bs cs with
  | nil =>
    cases bs with
    | nil => simp [lexLtCh] at h1
    | cons b bs' =>
      cases cs with
      | nil => simp [lexLtCh] at h2
      | cons c cs' => rfl
  | cons a as' ih =>
    cases bs with
    | nil => simp [lexLtCh] at h1
    | cons b bs' =>
      cases cs with
      | nil => simp [lexLtCh] at h2
      | cons c cs' =>
        rw [lexLtCh] at h1 h2 ⊢
        by_cases hab : a < b
        · by_cases hbc : b < c
          · rw [if_pos (lt_trans hab hbc)]
          · by_cases hcb : c < b
            · rw [if_neg hbc, if_pos hcb] at h2; exact absurd h2 (by simp)
            · have hbc' : b = c := le_antisymm (not_lt.mp hcb) (not_lt.mp hbc)
              subst hbc'
              rw [if_pos hab]
        · by_cases hba : b < a
          · rw [if_neg hab, if_pos hba] at h1; exact absurd h1 (by simp)
          · have hab' : a = b := le_antisymm (not_lt.mp hba) (not_lt.mp hab)
            subst hab'
            rw [if_neg hab, if_neg hba] at h1
            by_cases hac : a < c
            · rw [if_pos hac]
            · by_cases hca : c < a
              · rw [if_neg hac, if_pos hca] at h2; exact absurd h2 (by simp)
              · have hac' : a = c := le_antisymm (not_lt.mp hca) (not_lt.mp hac)
                subst hac'
                rw [if_neg hac, if_neg hca] at h2 ⊢
                exact ih bs' cs' h1 h2
  
/-- Lexicographic comparison is trichotomous. -/
theorem lexLtCh_total (as bs : List Char) :
    lexLtCh as bs = true ∨ lexLtCh bs as = true ∨ as = bs := by
  induction as generalizing bs with
  | nil =>
    cases bs with
    | nil => right; right; rfl
    | cons b bs' => left; rfl
  | cons a as' ih =>
    cases bs with
    | nil => right; left; rfl
    | cons b bs' =>
      rcases lt_trichotomy a b with hab | hab | hab
      · left; rw [lexLtCh, if_pos hab]
      · subst hab
        rcases ih bs' with h | h | h
        · left; rw [lexLtCh]; simp [lt_irrefl, h]
        · right; left; rw [lexLtCh]; simp [lt_irrefl, h]
        · right; right; rw [h]
      · right; left; rw [lexLtCh, if_pos hab]

/-- Equal character data means equal strings. -/
theorem string_eq_of_data_eq {a b : String} (h : a.data = b.data) : a = b := by
  obtain ⟨as⟩ := a
  obtain ⟨bs⟩ := b
  cases h
  rfl

/-- The comparator model is nonpositive exactly below-or-equal. -/
theorem jsCompare_le_iff (a b : String) :
    jsCompare a b ≤ 0 ↔ (lexLtCh a.data b.data = true ∨ a = b) := by
  rw [jsCompare]
  split_ifs with h1 h2
  · simp [h1]
  · simp [h2]
  · simp [h1, h2]

/-- Weak string inequality (lexicographically below or equal) is
transitive. -/
theorem strIneq_trans {a b c : String}
    (h1 : lexLtCh a.data b.data = true ∨ a = b)
    (h2 : lexLtCh b.data c.data = true ∨ b = c) :
    lexLtCh a.data c.data = true ∨ a = c := by
  rcases h1 with h1 | rfl
  · rcases h2 with h2 | rfl
    · exact Or.inl (lexLtCh_trans _ _ _ h1 h2)
    · exact Or.inl h1
  · exact h2

/-- The ranking relation, unfolded into the four-key lexicographic
order it implements. -/
theorem rankLE_iff (a b : BestTimeSlot × Int) :
    rankLE a b ↔
      (b.1.count < a.1.count ∨
        (a.1.count = b.1.count ∧
          (b.2 < a.2 ∨
            (a.2 = b.2 ∧
              (lexLtCh a.1.date.data b.1.date.data = true ∨
                (a.1.date = b.1.date ∧
                  (lexLtCh a.1.startTime.data b.1.startTime.data = true ∨
                    a.1.startTime = b.1.startTime))))))) := by
  rw [rankLE, compareBlocks]
  split_ifs with h1 h2 h3
  · constructor
    · intro h
      left
      omega
    · rintro (h | ⟨h, -⟩)
      · omega
      · exact absurd h h1
  · have hc : a.1.count = b.1.count := not_ne_iff.mp h1
    constructor
    · intro h
      exact Or.inr ⟨hc, Or.inl (by omega)⟩
    · rintro (h | ⟨-, h | ⟨h, -⟩⟩)
      · omega
      · omega
      · exact absurd h h2
  · have hc : a.1.count = b.1.count := not_ne_iff.mp h1
    have hd : a.2 = b.2 := not_ne_iff.mp h2
    rw [jsCompare_le_iff]
    constructor
    · rintro (h | h)
      · exact Or.inr ⟨hc, Or.inr ⟨hd, Or.inl h⟩⟩
      · exact absurd h h3
    · rintro (h | ⟨-, h | ⟨-, h | ⟨h, -⟩⟩⟩)
      · omega
      · omega
      · exact Or.inl h
      · exact absurd h h3
  · have hc : a.1.count = b.1.count := not_ne_iff.mp h1
    have hd : a.2 = b.2 := not_ne_iff.mp h2
    have hdate : a.1.date = b.1.date := not_ne_iff.mp h3
    rw [jsCompare_le_iff]
    constructor
    · intro h
      exact Or.inr ⟨hc, Or.inr ⟨hd, Or.inr ⟨hdate, h⟩⟩⟩
    · rintro (h | ⟨-, h | ⟨-, h | ⟨-, h⟩⟩⟩)
      · omega
      · omega
      · rw [hdate] at h
        rw [lexLtCh_self] at h
        exact absurd h (by simp)
      · exact h

/-- The ranking relation is total. -/
theorem rankLE_total (a b : BestTimeSlot × Int) : rankLE a b ∨ rankLE b a := by
  rw [rankLE_iff, rankLE_iff]
  rcases Nat.lt_trichotomy a.1.count b.1.count with h | h | h
  · right; left; exact h
  · rcases lt_trichotomy a.2 b.2 with hd | hd | hd
    · right; right; exact ⟨h.symm, Or.inl hd⟩
    · rcases lexLtCh_total a.1.date.data b.1.date.data with hD | hD | hD
      · left; right; exact ⟨h, Or.inr ⟨hd, Or.inl hD⟩⟩
      · right; right; exact ⟨h.symm, Or.inr ⟨hd.symm, Or.inl hD⟩⟩
      · have hDe : a.1.date = b.1.date := string_eq_of_data_eq hD
        rcases lexLtCh_total a.1.startTime.data b.1.startTime.data with hS | hS | hS
        · left; right; exact ⟨h, Or.inr ⟨hd, Or.inr ⟨hDe, Or.inl hS⟩⟩⟩
        · right; right; exact ⟨h.symm, Or.inr ⟨hd.symm, Or.inr ⟨hDe.symm, Or.inl hS⟩⟩⟩
        · left; right
          exact ⟨h, Or.inr ⟨hd, Or.inr ⟨hDe, Or.inr (string_eq_of_data_eq hS)⟩⟩⟩
    · left; right; exact ⟨h, Or.inl hd⟩
  · left; left; exact h

/-- The ranking relation is transitive. -/
theorem rankLE_trans (a b c : BestTimeSlot × Int) (h1 : rankLE a b) (h2 : rankLE b c) :
    rankLE a c := by
  rw [rankLE_iff] at h1 h2 ⊢
  rcases h1 with h1 | ⟨e1, h1⟩
  · rcases h2 with h2 | ⟨e2, h2⟩
    · left; omega
    · left; omega
  · rcases h2 with h2 | ⟨e2, h2⟩
    · left; omega
    · refine Or.inr ⟨e1.trans e2, ?_⟩
      rcases h1 with h1 | ⟨f1, h1⟩
      · rcases h2 with h2 | ⟨f2, h2⟩
        · left; omega
        · left; omega
      · rcases h2 with h2 | ⟨f2, h2⟩
        · left; omega
        · refine Or.inr ⟨f1.trans f2, ?_⟩
          rcases h1 with h1 | ⟨g1, h1⟩
          · rcases h2 with h2 | ⟨g2, h2⟩
            · left; exact lexLtCh_trans _ _ _ h1 h2
            · left; rw [← g2]; exact h1
          · rcases h2 with h2 | ⟨g2, h2⟩
            · left; rw [g1]; exact h2
            · refine Or.inr ⟨g1.trans g2, ?_⟩
              have hs := strIneq_trans h1 h2
              exact hs

/-- C1: the block list returned by the best-slot finder is sorted under
the exact four-key order (count descending, duration descending, date
ascending, start time ascending) as a `Pairwise` property — so in
particular any two returned blocks with equal count and duration but
different dates appear with the earlier date first, and with equal
count, duration and date the earlier start time first — and for
`limit ≥ 0` the output is the first `limit` elements of the ranked list,
hence has length at most `limit`.  Stated both for the ranking core on
an arbitrary aggregate and for the full finder on records. -/
theorem c1_ranking_sorted (agg : Aggregate) (limit : Int) :
    List.Pairwise specBlockOrder (bestBlocksFromAgg agg limit) ∧
    (0 ≤ limit →
      bestBlocksFromAgg agg limit = ((rankedBlocks agg).map Prod.fst).take limit.toNat ∧
      (bestBlocksFromAgg agg limit).length ≤ limit.toNat) ∧
    (∀ records : List Availability,
      List.Pairwise specBlockOrder (findBestTimeSlots records limit) ∧
      (0 ≤ limit → (findBestTimeSlots records limit).length ≤ limit.toNat)) := by
  have key : ∀ agg2 : Aggregate,
      List.Pairwise specBlockOrder (bestBlocksFromAgg agg2 limit) ∧
      (0 ≤ limit →
        bestBlocksFromAgg agg2 limit = ((rankedBlocks agg2).map Prod.fst).take limit.toNat ∧
        (bestBlocksFromAgg agg2 limit).length ≤ limit.toNat) := by
    intro agg2
    have hsorted : List.Sorted rankLE (rankedBlocks agg2) :=
      @List.sorted_insertionSort _ rankLE _ ⟨rankLE_total⟩ ⟨rankLE_trans⟩ _
    have hinv : ∀ x ∈ rankedBlocks agg2, x.2 = blockDuration x.1 := by
      intro x hx
      have hx' : x ∈ blocksWithDuration agg2 :=
        (List.perm_insertionSort rankLE (blocksWithDuration agg2)).mem_iff.mp hx
      rw [blocksWithDuration, List.mem_map] at hx'
      obtain ⟨b, -, rfl⟩ := hx'
      rfl
    have hpair : List.Pairwise (fun x y : BestTimeSlot × Int => specBlockOrder x.1 y.1)
        (rankedBlocks agg2) := by
      refine hsorted.imp_of_mem ?_
      intro x y hx hy hr
      rw [rankLE_iff] at hr
      rw [specBlockOrder, ← hinv x hx, ← hinv y hy]
      exact hr
    have hsub : List.Sublist (jsSlice (rankedBlocks agg2) limit) (rankedBlocks agg2) := by
      rw [jsSlice]
      split_ifs <;> exact List.take_sublist _ _
    have hpair2 : List.Pairwise specBlockOrder (bestBlocksFromAgg agg2 limit) := by
      rw [bestBlocksFromAgg, List.pairwise_map]
      exact List.Pairwise.sublist hsub hpair
    refine ⟨hpair2, fun hlim => ⟨?_, ?_⟩⟩
    · rw [bestBlocksFromAgg, jsSlice, if_pos hlim, List.map_take]
    · rw [bestBlocksFromAgg, List.length_map, jsSlice, if_pos hlim]
      exact List.length_take_le _ _
  refine ⟨(key agg).1, (key agg).2, ?_⟩
  intro records
  by_cases h0 : records.length = 0
  · simp only [findBestTimeSlots, if_pos h0]
    exact ⟨List.Pairwise.nil, fun _ => by simp⟩
  · simp only [findBestTimeSlots, if_neg h0]
    exact ⟨(key _).1, fun hl => ((key _).2 hl).2⟩

/-! ### Well-formed grid times and SlotKeys (machinery for C3, C9) -/

/-- Grid behaviour of the end-of-slot helper, verified by evaluation
over the 48 grid times. -/
theorem getSlotEndTime_grid : ∀ h, h < 24 →
    getSlotEndTime (timeStr h 0) = timeStr h 30 ∧
    getSlotEndTime (timeStr h 30) = timeStr (h + 1) 0 := by
  decide

/-- Minute values of the formatted grid times, verified by evaluation
(hour 24 included, for end-of-day block ends). -/
theorem timeToMinutes_timeStr : ∀ h, h < 25 →
    timeToMinutes (timeStr h 0) = 60 * h ∧
    timeToMinutes (timeStr h 30) = 60 * h + 30 := by
  decide

/-- Formatted grid times never contain the key separator `'T'`. -/
theorem timeStr_no_sep : ∀ h, h < 25 →
    'T' ∉ (timeStr h 0).data ∧ 'T' ∉ (timeStr h 30).data := by
  decide

/-- A well-formed time's minute value is a multiple of 30 and at most
23:30. -/
theorem wf_minutes (t : String) (h : WFTime t) :
    ∃ k, timeToMinutes t = 30 * k ∧ timeToMinutes t ≤ 1410 := by
  obtain ⟨hh, m, hlt, hm, rfl⟩ := h
  rcases hm with rfl | rfl
  · rw [(timeToMinutes_timeStr hh (by omega)).1]
    exact ⟨2 * hh, by omega, by omega⟩
  · rw [(timeToMinutes_timeStr hh (by omega)).2]
    exact ⟨2 * hh + 1, by omega, by omega⟩

/-- The slot end of a well-formed time is 30 minutes later. -/
theorem slotEnd_minutes (t : String) (h : WFTime t) :
    timeToMinutes (getSlotEndTime t) = timeToMinutes t + 30 := by
  obtain ⟨hh, m, hlt, hm, rfl⟩ := h
  rcases hm with rfl | rfl
  · rw [(getSlotEndTime_grid hh hlt).1, (timeToMinutes_timeStr hh (by omega)).2,
      (timeToMinutes_timeStr hh (by omega)).1]
  · rw [(getSlotEndTime_grid hh hlt).2, (timeToMinutes_timeStr (hh + 1) (by omega)).1,
      (timeToMinutes_timeStr hh (by omega)).2]
    omega

/-- Minute values identify well-formed times. -/
theorem wf_time_inj (t t' : String) (h : WFTime t) (h' : WFTime t')
    (hm : timeToMinutes t = timeToMinutes t') : t = t' := by
  obtain ⟨a, m, ha, hm1, rfl⟩ := h
  obtain ⟨b, n, hb, hm2, rfl⟩ := h'
  have e1 : timeToMinutes (timeStr a m) = 60 * a + m := by
    rcases hm1 with rfl | rfl
    · rw [(timeToMinutes_timeStr a (by omega)).1]; omega
    · rw [(timeToMinutes_timeStr a (by omega)).2]
  have e2 : timeToMinutes (timeStr b n) = 60 * b + n := by
    rcases hm2 with rfl | rfl
    · rw [(timeToMinutes_timeStr b (by omega)).1]; omega
    · rw [(timeToMinutes_timeStr b (by omega)).2]
  rw [e1, e2] at hm
  have hab : a = b ∧ m = n := by rcases hm1 with rfl | rfl <;> rcases hm2 with rfl | rfl <;> omega
  rw [hab.1, hab.2]

/-- Splitting a list without the separator returns it whole. -/
theorem splitCharAux_no_sep (c : Char) (l : List Char) (h : c ∉ l) :
    splitCharAux c l = [l] := by
  induction l with
  | nil => rfl
  | cons a as ih =>
    rw [splitCharAux]
    have hne : ¬ a = c := fun hh => h (hh ▸ List.mem_cons_self a as)
    rw [if_neg hne, ih (fun hm => h (List.mem_cons_of_mem a hm))]

/-- The character-level splitter never returns the empty list. -/
theorem splitCharAux_ne_nil (c : Char) (l : List Char) : splitCharAux c l ≠ [] := by
  cases l with
  | nil => simp [splitCharAux]
  | cons a as =>
    rw [splitCharAux]
    by_cases h : a = c
    · rw [if_pos h]; simp
    · rw [if_neg h]
      cases hs : splitCharAux c as with
      | nil => simp
      | cons x xs => simp

/-- Splitting at the first separator occurrence peels off the leading part. -/
theorem splitCharAux_append (c : Char) (l1 l2 : List Char) (h1 : c ∉ l1) :
    splitCharAux c (l1 ++ c :: l2) = l1 :: splitCharAux c l2 := by
  induction l1 with
  | nil => simp [splitCharAux]
  | cons a as ih =>
    rw [List.cons_append, splitCharAux]
    have hne : ¬ a = c := fun hh => h1 (hh ▸ List.mem_cons_self a as)
    rw [if_neg hne, ih (fun hm => h1 (List.mem_cons_of_mem a hm))]

/-- Rebuilding a string from its data is the identity. -/
theorem string_mk_data (s : String) : String.mk s.data = s := by
  obtain ⟨l⟩ := s
  rfl

/-- On a well-formed key, the `split('T')` destructuring recovers the
date and time components. -/
theorem splitKey_mkKey (d t : String) (hd : 'T' ∉ d.data) (ht : 'T' ∉ t.data) :
    splitKey (mkKey d t) = (d, t) := by
  have hdata : (mkKey d t).data = d.data ++ 'T' :: t.data := by
    rw [mkKey, String.data_append, String.data_append]
    simp
  rw [splitKey, splitOnChar, hdata, splitCharAux_append 'T' d.data t.data hd,
    splitCharAux_no_sep 'T' t.data ht]
  simp [string_mk_data]

/-! ### Characterization of the date grouping (machinery for C3, C9) -/

/-- Group lookup in the empty grouping object. -/
theorem gLookup_nil (d : String) : gLookup [] d = [] := rfl

/-- Group lookup distributes over a cons cell. -/
theorem gLookup_cons (g : String × List SlotEntry) (gs : List (String × List SlotEntry))
    (d : String) : gLookup (g :: gs) d = if g.1 = d then g.2 else gLookup gs d := by
  by_cases h : g.1 = d <;> simp [gLookup, List.find?_cons, h]

/-- Effect of pushing one entry on every date's entry list. -/
theorem addToGroup_gLookup (gs : List (String × List SlotEntry)) (d : String) (e : SlotEntry)
    (d' : String) :
    gLookup (addToGroup gs d e) d' =
      if d' = d then gLookup gs d' ++ [e] else gLookup gs d' := by
  induction gs with
  | nil =>
    by_cases h : d' = d
    · subst h; simp [addToGroup, gLookup_cons, gLookup_nil]
    · simp [addToGroup, gLookup_cons, gLookup_nil, h, Ne.symm h]
  | cons g gs' ih =>
    obtain ⟨d0, es⟩ := g
    rw [addToGroup]
    by_cases h0 : d0 = d
    · subst h0
      rw [if_pos rfl, gLookup_cons, gLookup_cons]
      by_cases h : d0 = d'
      · subst h; simp
      · simp [h, Ne.symm h]
    · rw [if_neg h0, gLookup_cons, gLookup_cons, ih]
      by_cases h1 : d0 = d'
      · subst h1
        rw [if_pos rfl, if_pos rfl, if_neg h0]
      · rw [if_neg h1, if_neg h1]

/-- Effect of pushing one entry on the grouping object's key list. -/
theorem addToGroup_keys (gs : List (String × List SlotEntry)) (d : String) (e : SlotEntry) :
    (addToGroup gs d e).map Prod.fst =
      if d ∈ gs.map Prod.fst then gs.map Prod.fst else gs.map Prod.fst ++ [d] := by
  induction gs with
  | nil => simp [addToGroup]
  | cons g gs' ih =>
    obtain ⟨d0, es⟩ := g
    rw [addToGroup]
    by_cases h0 : d0 = d
    · subst h0; simp
    · rw [if_neg h0]
      simp only [List.map_cons, ih]
      by_cases hmem : d ∈ gs'.map Prod.fst
      · rw [if_pos hmem, if_pos (by simp [hmem])]
      · rw [if_neg hmem, if_neg (by simp [hmem, Ne.symm h0]), List.cons_append]

/-- The grouping object never repeats a date key. -/
theorem slotsByDate_keys_nodup (agg : Aggregate) :
    ((slotsByDate agg).map Prod.fst).Nodup := by
  rw [slotsByDate]
  suffices h : ∀ gs0 : List (String × List SlotEntry), (gs0.map Prod.fst).Nodup →
      ((agg.foldl
        (fun gs p =>
          addToGroup gs (splitKey p.1).1 ⟨(splitKey p.1).2, p.2.count, p.2.participants⟩)
        gs0).map Prod.fst).Nodup by
    exact h [] (by simp)
  induction agg with
  | nil => intro gs0 h0; exact h0
  | cons p rest ih =>
    intro gs0 h0
    rw [List.foldl_cons]
    apply ih
    rw [addToGroup_keys]
    split_ifs with hm
    · exact h0
    · simp [List.nodup_append, h0, hm]

/-- The entry list grouped under a date is exactly the aggregate cells
whose key has that date component, in aggregate order, as entries. -/
theorem slotsByDate_gLookup (agg : Aggregate) (d : String) :
    gLookup (slotsByDate agg) d =
      (agg.filter (fun p => (splitKey p.1).1 == d)).map entryOf := by
  rw [slotsByDate]
  suffices h : ∀ gs0 : List (String × List SlotEntry),
      gLookup
        (agg.foldl
          (fun gs p =>
            addToGroup gs (splitKey p.1).1 ⟨(splitKey p.1).2, p.2.count, p.2.participants⟩)
          gs0) d
        = gLookup gs0 d ++ (agg.filter (fun p => (splitKey p.1).1 == d)).map entryOf by
    simpa [gLookup_nil] using h []
  induction agg with
  | nil => intro gs0; simp [gLookup_nil]
  | cons p rest ih =>
    intro gs0
    rw [List.foldl_cons, ih, addToGroup_gLookup, List.filter_cons]
    by_cases hp : (splitKey p.1).1 = d
    · rw [if_pos (hp.symm), if_pos (by simp [hp]), List.map_cons, List.append_assoc,
        List.singleton_append]
      rfl
    · rw [if_neg (fun hh => hp hh.symm), if_neg (by simp [hp])]

/-- In a grouping object with distinct date keys, a member group's
entry list is its date's lookup. -/
theorem gLookup_of_mem (gs : List (String × List SlotEntry))
    (hnd : (gs.map Prod.fst).Nodup) (g : String × List SlotEntry) (hg : g ∈ gs) :
    gLookup gs g.1 = g.2 := by
  induction gs with
  | nil => cases hg
  | cons g0 gs' ih =>
    rw [List.map_cons, List.nodup_cons] at hnd
    rcases List.mem_cons.mp hg with rfl | hg'
    · rw [gLookup_cons, if_pos rfl]
    · rw [gLookup_cons]
      have hne : ¬ g0.1 = g.1 := by
        intro hh
        exact hnd.1 (hh ▸ List.mem_map_of_mem Prod.fst hg')
      rw [if_neg hne]
      exact ih hnd.2 hg'

/-- A date whose lookup is nonempty is a key of the grouping object,
paired with that lookup. -/
theorem gLookup_mem (gs : List (String × List SlotEntry)) (d : String)
    (h : gLookup gs d ≠ []) : (d, gLookup gs d) ∈ gs := by
  induction gs with
  | nil => exact absurd rfl h
  | cons g gs' ih =>
    rw [gLookup_cons] at h ⊢
    by_cases h0 : g.1 = d
    · rw [if_pos h0]
      subst h0
      exact List.mem_cons.mpr (Or.inl (Prod.mk.eta).symm)
    · rw [if_neg h0] at h ⊢
      exact List.mem_cons_of_mem _ (ih h)

/-- Every block emitted by the per-date scan carries that date. -/
theorem scanDate_date (date : String) (l : List SlotEntry) :
    ∀ b ∈ scanDate date l, b.date = date := by
  intro b hb
  obtain ⟨segs, -, hscan, -, -⟩ := scanDate_segmentation date l
  rw [hscan, List.mem_map] at hb
  obtain ⟨s, -, rfl⟩ := hb
  rfl

/-- Membership in the collected block list. -/
theorem mem_datedBlocks (agg : Aggregate) (b : BestTimeSlot) :
    b ∈ datedBlocks agg ↔
      ∃ g ∈ slotsByDate agg, b ∈ scanDate g.1 (List.insertionSort timeLE g.2) := by
  rw [datedBlocks, List.mem_flatten]
  constructor
  · rintro ⟨l, hl, hb⟩
    rw [List.mem_map] at hl
    obtain ⟨g, hg, rfl⟩ := hl
    exact ⟨g, hg, hb⟩
  · rintro ⟨g, hg, hb⟩
    exact ⟨scanDate g.1 (List.insertionSort timeLE g.2),
      List.mem_map_of_mem _ hg, hb⟩

/-! ### Minute arithmetic along merge chains (machinery for C3, C9) -/

/-- Along a merge chain the first entry is no later than the last. -/
theorem chain_last_min (e : SlotEntry) (es : List SlotEntry)
    (hch : List.Chain' adjSame (e :: es)) (hwf : ∀ x ∈ e :: es, WFTime x.time) :
    timeToMinutes e.time ≤ timeToMinutes (es.getLastD e).time := by
  induction es generalizing e with
  | nil => simp
  | cons s es' ih =>
    rw [List.chain'_cons] at hch
    have hs : timeToMinutes s.time = timeToMinutes e.time + 30 := by
      rw [hch.1.1, slotEnd_minutes e.time (hwf e (by simp))]
    have hrec := ih s hch.2 (fun x hx => hwf x (List.mem_cons_of_mem e hx))
    rw [List.getLastD_cons]
    omega

/-- A grid time lies in a merged segment's half-open range exactly when
it is one of the segment's entry times. -/
theorem seg_cover (e : SlotEntry) (es : List SlotEntry)
    (hch : List.Chain' adjSame (e :: es)) (hwf : ∀ x ∈ e :: es, WFTime x.time)
    (t : String) (hwt : WFTime t) :
    (timeToMinutes e.time ≤ timeToMinutes t ∧
        timeToMinutes t < timeToMinutes (getSlotEndTime (es.getLastD e).time)) ↔
      t ∈ (e :: es).map SlotEntry.time := by
  induction es generalizing e with
  | nil =>
    have hwe : WFTime e.time := hwf e (by simp)
    rw [List.getLastD_nil, slotEnd_minutes e.time hwe]
    obtain ⟨kt, hkt, -⟩ := wf_minutes t hwt
    obtain ⟨ke, hke, -⟩ := wf_minutes e.time hwe
    constructor
    · rintro ⟨h1, h2⟩
      have heq : t = e.time := wf_time_inj t e.time hwt hwe (by omega)
      simp [heq]
    · intro ht
      have heq : t = e.time := by simpa using ht
      rw [heq]
      omega
  | cons s es' ih =>
    rw [List.chain'_cons] at hch
    have hwe : WFTime e.time := hwf e (by simp)
    have hws : WFTime s.time := hwf s (by simp)
    have hse : timeToMinutes s.time = timeToMinutes e.time + 30 := by
      rw [hch.1.1, slotEnd_minutes e.time hwe]
    have hwf' : ∀ x ∈ s :: es', WFTime x.time :=
      fun x hx => hwf x (List.mem_cons_of_mem e hx)
    have IH := ih s hch.2 hwf'
    rw [List.getLastD_cons]
    have hlastwf : WFTime ((es'.getLastD s).time) :=
      hwf' _ (List.getLastD_mem_cons es' s)
    have hend := slotEnd_minutes _ hlastwf
    have hlast := chain_last_min s es' hch.2 hwf'
    obtain ⟨kt, hkt, -⟩ := wf_minutes t hwt
    obtain ⟨ke, hke, -⟩ := wf_minutes e.time hwe
    constructor
    · rintro ⟨h1, h2⟩
      by_cases hts : timeToMinutes t < timeToMinutes e.time + 30
      · have heq : t = e.time := wf_time_inj t e.time hwt hwe (by omega)
        simp [heq]
      · have hmem := IH.mp ⟨by omega, h2⟩
        rw [List.map_cons, List.mem_cons]
        exact Or.inr hmem
    · intro ht
      rw [List.map_cons, List.mem_cons] at ht
      rcases ht with heq | hmem
      · rw [heq]
        omega
      · obtain ⟨hs1, hs2⟩ := IH.mpr hmem
        exact ⟨by omega, hs2⟩

/-- The time component of every grouped entry of a well-formed
aggregate is a well-formed grid time. -/
theorem entryOf_wf (p : String × SlotData) (h : WFKey p.1) : WFTime (entryOf p).time := by
  obtain ⟨d, t, hd, ht, hk⟩ := h
  have htT : 'T' ∉ t.data := by
    obtain ⟨hh, m, hlt, hm, rfl⟩ := ht
    rcases hm with rfl | rfl
    · exact (timeStr_no_sep hh (by omega)).1
    · exact (timeStr_no_sep hh (by omega)).2
  show WFTime (splitKey p.1).2
  rw [hk, splitKey_mkKey d t hd htT]
  exact ht

/-- All entries grouped under any date of a well-formed aggregate have
well-formed times. -/
theorem group_entry_wf (agg : Aggregate) (hWF : ∀ p ∈ agg, WFKey p.1)
    (g : String × List SlotEntry) (hg : g ∈ slotsByDate agg) :
    ∀ x ∈ g.2, WFTime x.time := by
  intro x hx
  have hself := gLookup_of_mem (slotsByDate agg) (slotsByDate_keys_nodup agg) g hg
  rw [← hself, slotsByDate_gLookup, List.mem_map] at hx
  obtain ⟨p, hp, rfl⟩ := hx
  exact entryOf_wf p (hWF p (List.mem_filter.mp hp).1)

/-- Every block of the ranked-and-truncated output is a block collected
from some date's scan. -/
theorem mem_bestBlocks_datedBlocks (agg : Aggregate) (limit : Int) (b : BestTimeSlot)
    (hb : b ∈ bestBlocksFromAgg agg limit) : b ∈ datedBlocks agg := by
  rw [bestBlocksFromAgg, List.mem_map] at hb
  obtain ⟨x, hx, rfl⟩ := hb
  have hsub : List.Sublist (jsSlice (rankedBlocks agg) limit) (rankedBlocks agg) := by
    rw [jsSlice]
    split_ifs <;> exact List.take_sublist _ _
  have hx2 : x ∈ blocksWithDuration agg :=
    (List.perm_insertionSort rankLE _).mem_iff.mp (hsub.subset hx)
  rw [blocksWithDuration, List.mem_map] at hx2
  obtain ⟨b0, hb0, rfl⟩ := hx2
  exact hb0

/-- Block bounds for one date's scan over well-formed entries. -/
theorem scan_block_bounds (date : String) (l : List SlotEntry)
    (hwf : ∀ x ∈ l, WFTime x.time) :
    ∀ b ∈ scanDate date l,
      timeToMinutes b.startTime < timeToMinutes b.endTime ∧
      timeToMinutes b.endTime ≤ 1440 := by
  intro b hb
  obtain ⟨segs, hjoin, hscan, hsegs, -⟩ := scanDate_segmentation date l
  rw [hscan, List.mem_map] at hb
  obtain ⟨s, hs, rfl⟩ := hb
  have hmem : ∀ x ∈ s.1 :: s.2, x ∈ l := by
    intro x hx
    rw [hjoin, segJoin, List.mem_flatMap]
    exact ⟨s, hs, hx⟩
  have hwfseg : ∀ x ∈ s.1 :: s.2, WFTime x.time := fun x hx => hwf x (hmem x hx)
  have hch := hsegs s hs
  have hlastwf : WFTime ((s.2.getLastD s.1).time) :=
    hwfseg _ (List.getLastD_mem_cons s.2 s.1)
  have hend := slotEnd_minutes _ hlastwf
  have hstart := chain_last_min s.1 s.2 hch hwfseg
  obtain ⟨k, hk1, hk2⟩ := wf_minutes _ hlastwf
  simp only [mkSeg]
  constructor
  · omega
  · omega

/-- C9: on a well-formed aggregate, every returned block satisfies
`startTime < endTime` in minutes since midnight, and the end time never
passes 24:00 (both times lie on the block's single calendar date - the
block carries exactly one `date` field and its range stays within that
day).  Stated for the ranking core on an aggregate and for the full
finder on records. -/
theorem c9_block_times_ordered (limit : Int) :
    (∀ agg : Aggregate, (∀ p ∈ agg, WFKey p.1) →
      ∀ b ∈ bestBlocksFromAgg agg limit,
        timeToMinutes b.startTime < timeToMinutes b.endTime ∧
        timeToMinutes b.endTime ≤ 1440) ∧
    (∀ records : List Availability,
      (∀ p ∈ calculateGroupAvailability records, WFKey p.1) →
      ∀ b ∈ findBestTimeSlots records limit,
        timeToMinutes b.startTime < timeToMinutes b.endTime ∧
        timeToMinutes b.endTime ≤ 1440) := by
  have main : ∀ agg : Aggregate, (∀ p ∈ agg, WFKey p.1) →
      ∀ b ∈ bestBlocksFromAgg agg limit,
        timeToMinutes b.startTime < timeToMinutes b.endTime ∧
        timeToMinutes b.endTime ≤ 1440 := by
    intro agg hWF b hb
    have hd := mem_bestBlocks_datedBlocks agg limit b hb
    rw [mem_datedBlocks] at hd
    obtain ⟨g, hg, hbs⟩ := hd
    have hwfg := group_entry_wf agg hWF g hg
    have hwfs : ∀ x ∈ List.insertionSort timeLE g.2, WFTime x.time := fun x hx =>
      hwfg x ((List.mem_insertionSort timeLE).mp hx)
    exact scan_block_bounds g.1 _ hwfs b hbs
  refine ⟨main, ?_⟩
  intro records hWF b hb
  by_cases h0 : records.length = 0
  · simp only [findBestTimeSlots, if_pos h0] at hb
    cases hb
  · simp only [findBestTimeSlots, if_neg h0] at hb
    exact main _ hWF b hb

/-- Closed witness for C9 at a one-record aggregate: the single
returned block runs 09:00 to 09:30. -/
theorem c9_block_times_ordered_witness :
    timeToMinutes (⟨"2024-01-10", "09:00", "09:30", 1, ["P2"]⟩ : BestTimeSlot).startTime <
      timeToMinutes (⟨"2024-01-10", "09:00", "09:30", 1, ["P2"]⟩ : BestTimeSlot).endTime ∧
    timeToMinutes (⟨"2024-01-10", "09:00", "09:30", 1, ["P2"]⟩ : BestTimeSlot).endTime ≤ 1440 :=
  (c9_block_times_ordered 3).1 (calculateGroupAvailability [wP2])
    (by
      intro p hp
      have hagg : calculateGroupAvailability [wP2] =
          [("2024-01-10T09:00", ⟨1, ["P2"]⟩)] := by decide
      rw [hagg, List.mem_singleton] at hp
      subst hp
      exact ⟨"2024-01-10", timeStr 9 0, by unfold WFDate; decide,
        ⟨9, 0, by omega, Or.inl rfl, rfl⟩, by decide⟩)
    ⟨"2024-01-10", "09:00", "09:30", 1, ["P2"]⟩ (by decide)

/-- A well-formed time never contains the key separator. -/
theorem wf_time_no_sep (t : String) (ht : WFTime t) : 'T' ∉ t.data := by
  obtain ⟨hh, m, hlt, hm, rfl⟩ := ht
  rcases hm with rfl | rfl
  · exact (timeStr_no_sep hh (by omega)).1
  · exact (timeStr_no_sep hh (by omega)).2

/-- When the limit is at least the number of ranked blocks, the
truncation keeps everything. -/
theorem bestBlocks_no_trunc (agg : Aggregate) (limit : Int)
    (hlim : ((rankedBlocks agg).length : Int) ≤ limit) :
    bestBlocksFromAgg agg limit = (rankedBlocks agg).map Prod.fst := by
  have h0 : 0 ≤ limit := le_trans (Int.natCast_nonneg _) hlim
  rw [bestBlocksFromAgg, jsSlice, if_pos h0, List.take_of_length_le (by omega)]

/-- The ranked list holds exactly the collected blocks. -/
theorem mem_ranked_map_iff (agg : Aggregate) (b : BestTimeSlot) :
    b ∈ (rankedBlocks agg).map Prod.fst ↔ b ∈ datedBlocks agg := by
  constructor
  · intro hb
    rw [List.mem_map] at hb
    obtain ⟨x, hx, rfl⟩ := hb
    have hx2 : x ∈ blocksWithDuration agg :=
      (List.perm_insertionSort rankLE _).mem_iff.mp hx
    rw [blocksWithDuration, List.mem_map] at hx2
    obtain ⟨b0, hb0, rfl⟩ := hx2
    exact hb0
  · intro hb
    refine List.mem_map.mpr ⟨(b, blockDuration b), ?_, rfl⟩
    refine (List.perm_insertionSort rankLE _).mem_iff.mpr ?_
    rw [blocksWithDuration, List.mem_map]
    exact ⟨b, hb, rfl⟩

/-- C3: on a well-formed aggregate, whenever no limit truncation
applies (limit at least the number of blocks produced), a 30-minute
grid time on a date is covered by the half-open range of some returned
block of that date exactly when the aggregate has an entry at that
date's SlotKey for that time - no slot dropped, none invented.  Since
this holds with the block's own `date` field required equal to `d`, a
block's range accounts only for entries of its own single date: blocks
never span two dates. -/
theorem c3_block_coverage (agg : Aggregate) (hWF : ∀ p ∈ agg, WFKey p.1)
    (limit : Int) (hlim : ((rankedBlocks agg).length : Int) ≤ limit)
    (d : String) (hd : WFDate d) (t : String) (hwt : WFTime t) :
    (∃ b ∈ bestBlocksFromAgg agg limit, b.date = d ∧
        timeToMinutes b.startTime ≤ timeToMinutes t ∧
        timeToMinutes t < timeToMinutes b.endTime) ↔
      ∃ data : SlotData, (mkKey d t, data) ∈ agg := by
  rw [bestBlocks_no_trunc agg limit hlim]
  have htT : 'T' ∉ t.data := wf_time_no_sep t hwt
  constructor
  · rintro ⟨b, hb, hbd, h1, h2⟩
    rw [mem_ranked_map_iff, mem_datedBlocks] at hb
    obtain ⟨g, hg, hbs⟩ := hb
    obtain ⟨segs, hjoin, hscan, hsegs, -⟩ :=
      scanDate_segmentation g.1 (List.insertionSort timeLE g.2)
    rw [hscan, List.mem_map] at hbs
    obtain ⟨s, hs, rfl⟩ := hbs
    have hwfg := group_entry_wf agg hWF g hg
    have hwfseg : ∀ x ∈ s.1 :: s.2, WFTime x.time := by
      intro x hx
      have hxj : x ∈ segJoin segs := by
        rw [segJoin, List.mem_flatMap]
        exact ⟨s, hs, hx⟩
      rw [← hjoin, List.mem_insertionSort] at hxj
      exact hwfg x hxj
    simp only [mkSeg] at h1 h2 hbd
    have hcov := (seg_cover s.1 s.2 (hsegs s hs) hwfseg t hwt).mp ⟨h1, h2⟩
    rw [List.mem_map] at hcov
    obtain ⟨x, hxseg, hxt⟩ := hcov
    have hxg : x ∈ g.2 := by
      have hxj : x ∈ segJoin segs := by
        rw [segJoin, List.mem_flatMap]
        exact ⟨s, hs, hxseg⟩
      rw [← hjoin, List.mem_insertionSort] at hxj
      exact hxj
    have hself := gLookup_of_mem (slotsByDate agg) (slotsByDate_keys_nodup agg) g hg
    rw [← hself, slotsByDate_gLookup, List.mem_map] at hxg
    obtain ⟨p, hpf, hpe⟩ := hxg
    rw [List.mem_filter] at hpf
    obtain ⟨hpagg, hpd⟩ := hpf
    obtain ⟨d1, t1, hd1, ht1, hk⟩ := hWF p hpagg
    have hsplit : splitKey p.1 = (d1, t1) := by
      rw [hk]
      exact splitKey_mkKey d1 t1 hd1 (wf_time_no_sep t1 ht1)
    have hd1d : d1 = d := by
      have h3 : (splitKey p.1).1 = g.1 := by simpa using hpd
      rw [hsplit] at h3
      exact h3.trans hbd
    have ht1t : t1 = t := by
      have hxt1 : (entryOf p).time = t1 := by
        show (splitKey p.1).2 = t1
        rw [hsplit]
      rw [hpe] at hxt1
      rw [← hxt1, hxt]
    have hp1 : p.1 = mkKey d t := by rw [hk, hd1d, ht1t]
    refine ⟨p.2, ?_⟩
    have hpp : (mkKey d t, p.2) = p := by
      rw [← hp1]
    rw [hpp]
    exact hpagg
  · rintro ⟨data, hpagg⟩
    have hsplit : splitKey (mkKey d t) = (d, t) := splitKey_mkKey d t hd htT
    have hx_time : (entryOf (mkKey d t, data)).time = t := by
      show (splitKey (mkKey d t)).2 = t
      rw [hsplit]
    have hxg : entryOf (mkKey d t, data) ∈ gLookup (slotsByDate agg) d := by
      rw [slotsByDate_gLookup, List.mem_map]
      refine ⟨(mkKey d t, data), ?_, rfl⟩
      rw [List.mem_filter]
      refine ⟨hpagg, ?_⟩
      have : (splitKey (mkKey d t)).1 = d := by rw [hsplit]
      simpa using this
    have hne : gLookup (slotsByDate agg) d ≠ [] := List.ne_nil_of_mem hxg
    have hgmem : (d, gLookup (slotsByDate agg) d) ∈ slotsByDate agg :=
      gLookup_mem (slotsByDate agg) d hne
    have hxs : entryOf (mkKey d t, data) ∈
        List.insertionSort timeLE (gLookup (slotsByDate agg) d) :=
      (List.mem_insertionSort timeLE).mpr hxg
    obtain ⟨segs, hjoin, hscan, hsegs, -⟩ :=
      scanDate_segmentation d (List.insertionSort timeLE (gLookup (slotsByDate agg) d))
    have hxj : entryOf (mkKey d t, data) ∈ segJoin segs := by
      rw [← hjoin]
      exact hxs
    rw [segJoin, List.mem_flatMap] at hxj
    obtain ⟨s, hs, hxseg⟩ := hxj
    have hwfseg : ∀ y ∈ s.1 :: s.2, WFTime y.time := by
      intro y hy
      have hyj : y ∈ segJoin segs := by
        rw [segJoin, List.mem_flatMap]
        exact ⟨s, hs, hy⟩
      rw [← hjoin, List.mem_insertionSort] at hyj
      exact group_entry_wf agg hWF (d, gLookup (slotsByDate agg) d) hgmem y hyj
    have hcov := (seg_cover s.1 s.2 (hsegs s hs) hwfseg t hwt).mpr
      (by rw [List.mem_map]; exact ⟨entryOf (mkKey d t, data), hxseg, hx_time⟩)
    refine ⟨mkSeg d s.1 s.2, ?_, rfl, ?_, ?_⟩
    · rw [mem_ranked_map_iff, mem_datedBlocks]
      refine ⟨(d, gLookup (slotsByDate agg) d), hgmem, ?_⟩
      rw [hscan]
      exact List.mem_map_of_mem _ hs
    · simpa only [mkSeg] using hcov.1
    · simpa only [mkSeg] using hcov.2

/-- Closed witness for C3 at a one-record aggregate, date 2024-01-10
and grid time 09:00. -/
theorem c3_block_coverage_witness :
    (∃ b ∈ bestBlocksFromAgg (calculateGroupAvailability [wP2]) 3, b.date = "2024-01-10" ∧
        timeToMinutes b.startTime ≤ timeToMinutes (timeStr 9 0) ∧
        timeToMinutes (timeStr 9 0) < timeToMinutes b.endTime) ↔
      ∃ data : SlotData,
        (mkKey "2024-01-10" (timeStr 9 0), data) ∈ calculateGroupAvailability [wP2] :=
  c3_block_coverage (calculateGroupAvailability [wP2])
    (by
      intro p hp
      have hagg : calculateGroupAvailability [wP2] =
          [("2024-01-10T09:00", ⟨1, ["P2"]⟩)] := by decide
      rw [hagg, List.mem_singleton] at hp
      subst hp
      exact ⟨"2024-01-10", timeStr 9 0, by unfold WFDate; decide,
        ⟨9, 0, by omega, Or.inl rfl, rfl⟩, by decide⟩)
    3 (by decide) "2024-01-10" (by unfold WFDate; decide)
    (timeStr 9 0) ⟨9, 0, by omega, Or.inl rfl, rfl⟩
